import Mathlib

/-!
Shallow embedding of the retrieval core of the Jupiter Money chatbot:
the semantic chunker (`improved_scraper.py`, `JupiterScraper.semantic_chunk_text`),
the FAISS-backed vector store (`vector_store.py`, `JupiterVectorStore`) and the
answer-confidence scorer (`llm_handler.py`).

Modelling conventions:
* Floating point numbers are modelled by exact rationals (`ℚ`).
* The opaque embedding model (`SentenceTransformer.encode`) is a parameter
  `enc`; where the source wraps the call in `try/except` it returns
  `Option (List ℚ)`, where it cannot fail for the caller it is total.
* `np.linalg.norm` is a square root and has no exact rational counterpart,
  so it is an opaque parameter `norm : List ℚ → ℚ`; the cosine formula
  `dot(a,b) / (norm(a)*norm(b) + 1e-8)` is kept verbatim around it.
* FAISS `IndexFlatL2.search(q, k)` is modelled exactly: it reports squared
  L2 distances in ascending order and pads its output with index `-1`
  whenever fewer than `k` vectors are stored.
* The on-disk pair written by `_save_index` / read by `_load_index`
  (`faiss_index.bin` + `metadata.json`) is a `Disk` with two file slots;
  a slot is `none` when the file is absent and `File.corrupt` when reading
  it raises (the two failure modes `_load_index` distinguishes).
-/

namespace Jupiter

/-- The constant `1e-8` appearing in both cosine-similarity denominators. -/
def epsQ : ℚ := 1 / 100000000

/-- `np.dot` on (equal-length) vectors. -/
def listDot (a b : List ℚ) : ℚ := (List.zipWith (fun x y => x * y) a b).sum

/-- Squared euclidean distance: the quantity FAISS `IndexFlatL2` reports. -/
def l2sq (a b : List ℚ) : ℚ := (List.zipWith (fun x y => (x - y) * (x - y)) a b).sum

/-- Python `\s` on the ASCII range. -/
def isSpace (c : Char) : Bool :=
  c = ' ' || c = '\t' || c = '\n' || c = '\r' || c = '\x0b' || c = '\x0c'

/-- `str.lower()` as a character list. -/
def lowerChars (s : String) : List Char := s.toList.map Char.toLower

/-- Does `hay` start with `needle`. -/
def charsStart : List Char → List Char → Bool
  | [], _ => true
  | _ :: _, [] => false
  | a :: as, b :: bs => a = b && charsStart as bs

/-- Python `needle in hay` (contiguous substring). -/
def charsContain (needle : List Char) : List Char → Bool
  | [] => needle.isEmpty
  | b :: bs => charsStart needle (b :: bs) || charsContain needle bs

/-- `kw in text.lower()` for a lowercase keyword `kw`. -/
def containsLower (text : String) (kw : String) : Bool :=
  charsContain kw.toList (lowerChars text)

/-- Helper for `len(s.split())`: counts maximal non-whitespace runs. -/
def countWordsAux : Bool → List Char → Nat
  | _, [] => 0
  | inWord, c :: cs =>
    if isSpace c then countWordsAux false cs
    else (if inWord then 0 else 1) + countWordsAux true cs

/-- `len(s.split())`. -/
def countWords (s : String) : Nat := countWordsAux false s.toList

/-- `' '.join(l)`. -/
def joinSp (l : List String) : String := String.intercalate " " l

/-- Does the sentence collected so far (kept reversed) end in `.`, `!` or `?`. -/
def endsPunct : List Char → Bool
  | [] => false
  | p :: _ => p = '.' || p = '!' || p = '?'

/-- `re.split(r'(?<=[.!?])\s+', text)` as a single scan: `cur` is the current
sentence reversed, `skipping` is true while consuming a separator run. -/
def splitAux (cur : List Char) (skipping : Bool) : List Char → List (List Char)
  | [] => [cur.reverse]
  | c :: cs =>
    if skipping then
      (if isSpace c then splitAux cur true cs else splitAux [c] false cs)
    else if endsPunct cur && isSpace c then
      cur.reverse :: splitAux [] true cs
    else splitAux (c :: cur) false cs

/-- `re.split(r'(?<=[.!?])\s+', text)`. -/
def splitSentences (text : String) : List String :=
  (splitAux [] false text.toList).map fun l => String.mk l

/-! ### Semantic chunker (`improved_scraper.py`) -/

/-- Keywords that select the contact-chunking path. -/
def contactKws : List String := ["phone", "email", "contact", "support"]

/-- Keywords that close a contact sentence group. -/
def boundaryKws : List String := ["phone", "email", "chat", "hours"]

/-- `any(keyword in text.lower() for keyword in ['phone','email','contact','support'])`. -/
def hasContactKeyword (text : String) : Bool :=
  contactKws.any fun kw => containsLower text kw

/-- One iteration of the contact-path loop: state is
(`contact_chunks` so far, `current_chunk`). -/
def contactStep (st : List String × List String) (sentence : String) :
    List String × List String :=
  let cur := st.2 ++ [sentence]
  if 3 ≤ cur.length || boundaryKws.any (fun kw => containsLower sentence kw) then
    (if 5 < countWords (joinSp cur) then st.1 ++ [joinSp cur] else st.1, [])
  else (st.1, cur)

/-- The contact path of `semantic_chunk_text` up to (not including) the
`[text]` fallback: grouping loop plus the final flush of `current_chunk`. -/
def contactChunksOf (text : String) : List String :=
  let st := (splitSentences text).foldl contactStep ([], [])
  if st.2.isEmpty then st.1
  else if 5 < countWords (joinSp st.2) then st.1 ++ [joinSp st.2] else st.1

/-- Loop state of the regular (similarity-based) chunking path. -/
structure ChunkState where
  chunks : List String
  current_chunk : List String
  current_emb : List (List ℚ)

/-- One iteration of the regular chunking loop, verbatim from the source:
close the chunk when `sim < similarity_threshold or len(current_chunk) >=
max_chunk_size`, append otherwise.  `current_emb[-1]` is `getLastD`. -/
def chunkFold (norm : List ℚ → ℚ) (thr : ℚ) (maxc : Nat) (st : ChunkState)
    (p : String × List ℚ) : ChunkState :=
  let a := st.current_emb.getLastD []
  let sim := listDot a p.2 / (norm a * norm p.2 + epsQ)
  if sim < thr ∨ maxc ≤ st.current_chunk.length then
    { chunks := st.chunks ++ [joinSp st.current_chunk],
      current_chunk := [p.1], current_emb := [p.2] }
  else
    { chunks := st.chunks, current_chunk := st.current_chunk ++ [p.1],
      current_emb := st.current_emb ++ [p.2] }

/-- Modelled from the spec: the same loop step as the spec words it —
"if similarity ≥ similarityThreshold and the chunk has not yet reached
maxChunkSentences, append the sentence; otherwise close the chunk and start
a new one".  Compared against `chunkFold` (the source) in `c3_greedy_boundary`. -/
def specChunkFold (norm : List ℚ → ℚ) (thr : ℚ) (maxc : Nat) (st : ChunkState)
    (p : String × List ℚ) : ChunkState :=
  let a := st.current_emb.getLastD []
  let sim := listDot a p.2 / (norm a * norm p.2 + epsQ)
  if thr ≤ sim ∧ st.current_chunk.length < maxc then
    { chunks := st.chunks, current_chunk := st.current_chunk ++ [p.1],
      current_emb := st.current_emb ++ [p.2] }
  else
    { chunks := st.chunks ++ [joinSp st.current_chunk],
      current_chunk := [p.1], current_emb := [p.2] }

/-- The regular chunking path given the sentence list: seed with sentence 0,
fold the loop over the remaining (sentence, embedding) pairs, flush the last
chunk.  (The source pairs `sentences[i]` with `embeddings[i] = enc sentences[i]`.) -/
def regularChunks (norm : List ℚ → ℚ) (enc : String → List ℚ) (thr : ℚ) (maxc : Nat) :
    List String → List String
  | [] => []
  | s0 :: rest =>
    let st := (rest.map fun s => (s, enc s)).foldl (chunkFold norm thr maxc)
      ⟨[], [s0], [enc s0]⟩
    if st.current_chunk.isEmpty then st.chunks else st.chunks ++ [joinSp st.current_chunk]

/-- `JupiterScraper.semantic_chunk_text(text, similarity_threshold, min_chunk_size,
max_chunk_size)`.  Contact texts take the keyword-grouping path with the `[text]`
fallback; other texts take the similarity path with the `> 10` word post-filter. -/
def semantic_chunk_text (norm : List ℚ → ℚ) (enc : String → List ℚ) (thr : ℚ)
    (minc maxc : Nat) (text : String) : List String :=
  if hasContactKeyword text then
    let cc := contactChunksOf text
    if cc.isEmpty then [text] else cc
  else
    let sentences := splitSentences text
    if sentences.length ≤ minc then [joinSp sentences]
    else (regularChunks norm enc thr maxc sentences).filter fun c => 10 < countWords c

/-! ### Confidence scorer (`llm_handler.py`) -/

/-- The record built for each hit in `JupiterVectorStore.search`. -/
structure SearchResult where
  content : String
  url : String
  title : String
  chunk_id : Nat
  distance : ℚ
  relevance_score : ℚ
deriving DecidableEq

/-- `llm_handler.cosine_similarity`; `norm` stands for `np.linalg.norm`. -/
def cosine_similarity (norm : List ℚ → ℚ) (a b : List ℚ) : ℚ :=
  listDot a b / (norm a * norm b + epsQ)

/-- The confidence computation of `JupiterQABot.generate_answer` (lines 89-96):
when `search_results and vector_store` are truthy, cosine similarity between
the question embedding and the top result's content embedding, clamped by
`max(0.0, min(confidence, 1.0))`; otherwise `0.0`. -/
def generate_confidence (norm : List ℚ → ℚ) (enc : String → List ℚ) (question : String)
    (search_results : List SearchResult) (vector_store : Bool) : ℚ :=
  match search_results, vector_store with
  | top :: _, true =>
    max 0 (min (cosine_similarity norm (enc question) (enc top.content)) 1)
  | _, _ => 0

/-! ### Vector store (`vector_store.py`) -/

/-- One record of `prepared_data.json` as consumed by the store. -/
structure Item where
  id : String
  url : String
  title : String
  content : String
  chunk_id : Nat
deriving DecidableEq

/-- A FAISS `IndexFlatL2`: dimension plus stored vectors in insertion order. -/
structure FaissIndex where
  d : Nat
  vectors : List (List ℚ)
deriving DecidableEq

/-- The JSON manifest `_save_index` writes to `metadata.json`. -/
structure Metadata where
  id_map : List String
  total_documents : Nat
  embedding_dimension : Nat
deriving DecidableEq

/-- A persisted file: reading it either raises (`corrupt`) or yields a value. -/
inductive File (α : Type) where
  | corrupt : File α
  | valid : α → File α
deriving DecidableEq

/-- The persist directory: `faiss_index.bin` and `metadata.json` slots
(`none` = the file does not exist). -/
structure Disk where
  indexFile : Option (File FaissIndex)
  metadataFile : Option (File Metadata)
deriving DecidableEq

/-- In-memory state of `JupiterVectorStore`: `self.data`, `self.index`,
`self.id_map`. -/
structure VectorStore where
  data : List Item
  index : Option FaissIndex
  id_map : List String
deriving DecidableEq

/-- Comparison FAISS effectively sorts hits by: ascending distance,
ties by ascending position. -/
def hitLE (p q : Int × ℚ) : Prop :=
  p.2 < q.2 ∨ (p.2 = q.2 ∧ p.1 ≤ q.1)

instance : DecidableRel hitLE := fun p q =>
  inferInstanceAs (Decidable (p.2 < q.2 ∨ (p.2 = q.2 ∧ p.1 ≤ q.1)))

instance : IsTotal (Int × ℚ) hitLE where
  total p q := by
    rcases lt_trichotomy p.2 q.2 with h | h | h
    · exact Or.inl (Or.inl h)
    · rcases le_total p.1 q.1 with h1 | h1
      · exact Or.inl (Or.inr ⟨h, h1⟩)
      · exact Or.inr (Or.inr ⟨h.symm, h1⟩)
    · exact Or.inr (Or.inl h)

instance : IsTrans (Int × ℚ) hitLE where
  trans p q r hpq hqr := by
    rcases hpq with h1 | ⟨h1, h1'⟩
    · rcases hqr with h2 | ⟨h2, _⟩
      · exact Or.inl (h1.trans h2)
      · exact Or.inl (h2 ▸ h1)
    · rcases hqr with h2 | ⟨h2, h2'⟩
      · exact Or.inl (h1 ▸ h2)
      · exact Or.inr ⟨h1.trans h2, h1'.trans h2'⟩

/-- `(position, squared-distance)` pairs for every stored vector, positions
starting at `i`. -/
def indexedDists (qv : List ℚ) : Nat → List (List ℚ) → List (Int × ℚ)
  | _, [] => []
  | i, v :: vs => ((i : Int), l2sq qv v) :: indexedDists qv (i + 1) vs

/-- FAISS `index.search(q, k)` flattened to one query: the `k` nearest stored
vectors as `(position, squared distance)` in ascending-distance order, padded
with `(-1, _)` rows when fewer than `k` vectors are stored. -/
def faissSearch (idx : FaissIndex) (qv : List ℚ) (k : Nat) : List (Int × ℚ) :=
  let sorted := List.insertionSort hitLE (indexedDists qv 0 idx.vectors)
  let top := sorted.take k
  top ++ List.replicate (k - top.length) ((-1 : Int), (0 : ℚ))

/-- The loop body of `JupiterVectorStore.search`: skip `idx == -1` and
`idx >= len(self.data)`, otherwise build the result record with
`relevance_score = 1 / (1 + distance)`. -/
def hitToResult (data : List Item) (p : Int × ℚ) : Option SearchResult :=
  if p.1 = -1 ∨ (data.length : Int) ≤ p.1 then none
  else (data[p.1.toNat]?).map fun item =>
    { content := item.content, url := item.url, title := item.title,
      chunk_id := item.chunk_id, distance := p.2,
      relevance_score := 1 / (1 + p.2) }

/-- `JupiterVectorStore.search(query, top_k)`: empty when the index is unset,
when no data is loaded, or when encoding the query raises; otherwise query
FAISS with `min(top_k, len(self.data))` and map hits back through `self.data`. -/
def search (enc : String → Option (List ℚ)) (s : VectorStore) (query : String)
    (top_k : Nat) : List SearchResult :=
  match s.index with
  | none => []
  | some idx =>
    if s.data.isEmpty then []
    else match enc query with
      | none => []
      | some qv => (faissSearch idx qv (min top_k s.data.length)).filterMap (hitToResult s.data)

/-- `self.embedding_model.encode(texts)`: the batch either embeds every text
or raises (modelled as `none`). -/
def encodeAll (enc : String → Option (List ℚ)) : List String → Option (List (List ℚ))
  | [] => some []
  | t :: ts =>
    match enc t, encodeAll enc ts with
    | some v, some vs => some (v :: vs)
    | _, _ => none

/-- `JupiterVectorStore._save_index` (leading underscore dropped): writes the
index file and the manifest together when an index exists, touches nothing
otherwise. -/
def save_index (s : VectorStore) (disk : Disk) : Disk :=
  match s.index with
  | some idx =>
    { indexFile := some (File.valid idx),
      metadataFile := some (File.valid
        { id_map := s.id_map, total_documents := s.data.length,
          embedding_dimension := idx.d }) }
  | none => disk

/-- `JupiterVectorStore.create_embeddings`: fail on empty data; encode the
corpus (failure aborts with no state change); build a flat index over the
embeddings, set `id_map`, and persist. -/
def create_embeddings (enc : String → Option (List ℚ)) (s : VectorStore) (disk : Disk) :
    VectorStore × Disk × Bool :=
  if s.data.isEmpty then (s, disk, false)
  else
    match encodeAll enc (s.data.map fun it => it.content) with
    | none => (s, disk, false)
    | some embeddings =>
      let index : FaissIndex := { d := (embeddings.headI).length, vectors := embeddings }
      let s' : VectorStore :=
        { s with index := some index, id_map := s.data.map fun it => it.id }
      (s', save_index s' disk, true)

/-- `JupiterVectorStore._load_index` (leading underscore dropped).  Both files
must exist; `faiss.read_index` runs first (raising on a corrupt index file
leaves the state untouched), then the manifest is parsed — so a corrupt
manifest leaves the freshly assigned index in place with the old `id_map`. -/
def load_index (s : VectorStore) (disk : Disk) : VectorStore :=
  match disk.indexFile, disk.metadataFile with
  | some fi, some fm =>
    match fi with
    | File.corrupt => s
    | File.valid idx =>
      match fm with
      | File.corrupt => { s with index := some idx }
      | File.valid md => { s with index := some idx, id_map := md.id_map }
  | _, _ => s

/-- `JupiterVectorStore.__init__` state after the constructor's `_load_index`
call: empty data, then an attempted load from disk. -/
def loadInit (disk : Disk) : VectorStore :=
  load_index { data := [], index := none, id_map := [] } disk

/-! ### Concrete fixtures used by counterexamples and witnesses -/

/-- A stand-in for `np.linalg.norm` that returns `1` on every vector. -/
def norm1 : List ℚ → ℚ := fun _ => 1

/-- A constant total embedding provider. -/
def encConst : String → List ℚ := fun _ => [1]

/-- A fallible embedding provider that embeds a string as its length. -/
def encLen : String → Option (List ℚ) := fun s => some [(s.length : ℚ)]

/-- An embedding provider that always raises. -/
def encFail : String → Option (List ℚ) := fun _ => none

def item0 : Item :=
  { id := "u_0", url := "u", title := "t", content := "hello world", chunk_id := 0 }

def store0 : VectorStore := { data := [item0], index := none, id_map := [] }

def disk0 : Disk := { indexFile := none, metadataFile := none }

def idx0 : FaissIndex := { d := 1, vectors := [[11]] }

def md0 : Metadata := { id_map := ["u_0"], total_documents := 1, embedding_dimension := 1 }

def store1 : VectorStore := { data := [item0], index := some idx0, id_map := ["u_0"] }

def disk1 : Disk :=
  { indexFile := some (File.valid idx0), metadataFile := some (File.valid md0) }

def storeEmpty : VectorStore := { data := [], index := none, id_map := [] }

/-- A valid index file next to a corrupt manifest. -/
def diskCorruptMeta : Disk :=
  { indexFile := some (File.valid idx0), metadataFile := some File.corrupt }

/-- A corrupt index file next to a valid manifest. -/
def diskCorruptIdx : Disk :=
  { indexFile := some File.corrupt, metadataFile := some (File.valid md0) }

def itemA : Item := { id := "a0", url := "ua", title := "ta", content := "a", chunk_id := 0 }

def itemB : Item := { id := "b0", url := "ub", title := "tb", content := "abc", chunk_id := 1 }

def idxW : FaissIndex := { d := 1, vectors := [[1], [3]] }

/-- A consistently built two-document store (`encLen` embeddings of the contents). -/
def storeW : VectorStore := { data := [itemA, itemB], index := some idxW, id_map := ["a0", "b0"] }

/-- A stale store: three vectors in the index but only one data record. -/
def storeStale : VectorStore :=
  { data := [itemA], index := some { d := 1, vectors := [[5], [2], [3]] }, id_map := ["a0"] }

/-- The top result `search encLen storeW "q" _` produces. -/
def resA : SearchResult :=
  { content := "a", url := "ua", title := "ta", chunk_id := 0, distance := 0,
    relevance_score := 1 }

/-- The second result `search encLen storeW "q" _` produces. -/
def resB : SearchResult :=
  { content := "abc", url := "ub", title := "tb", chunk_id := 1, distance := 4,
    relevance_score := 1/5 }

/-- A non-contact text of three mutually similar sentences and 12 words. -/
def simText : String := "Aa bb cc dd. Ee ff gg hh. Ii jj kk ll."

/-- A contact text whose single group survives the 5-word filter. -/
def contactText : String := "Call support at our phone line today friends."

/-! ### Helper lemmas -/

theorem l2sq_nonneg : ∀ a b : List ℚ, 0 ≤ l2sq a b := by
  intro a
  induction a with
  | nil => intro b; simp [l2sq]
  | cons x xs ih =>
    intro b
    cases b with
    | nil => simp [l2sq]
    | cons y ys =>
      have h1 := ih ys
      have h2 : 0 ≤ (x - y) * (x - y) := mul_self_nonneg _
      unfold l2sq at h1 ⊢
      simp only [List.zipWith_cons_cons, List.sum_cons]
      linarith

theorem length_filterMap_isSome {α β : Type} (f : α → Option β) :
    ∀ l : List α, (∀ a ∈ l, (f a).isSome) → (l.filterMap f).length = l.length := by
  intro l
  induction l with
  | nil => intro _; rfl
  | cons a l ih =>
    intro h
    rcases ho : f a with _ | b
    · have ha := h a (List.mem_cons_self a l)
      rw [ho] at ha
      simp at ha
    · rw [List.filterMap_cons_some ho, List.length_cons, List.length_cons,
        ih fun x hx => h x (List.mem_cons_of_mem _ hx)]

theorem indexedDists_length (qv : List ℚ) :
    ∀ (vs : List (List ℚ)) (i : Nat), (indexedDists qv i vs).length = vs.length := by
  intro vs
  induction vs with
  | nil => intro i; rfl
  | cons v vs ih => intro i; simp [indexedDists, ih]

theorem indexedDists_mem (qv : List ℚ) :
    ∀ (vs : List (List ℚ)) (i : Nat) (p : Int × ℚ), p ∈ indexedDists qv i vs →
      (∃ j : Nat, i ≤ j ∧ j < i + vs.length ∧ p.1 = (j : Int))
      ∧ ∃ v ∈ vs, p.2 = l2sq qv v := by
  intro vs
  induction vs with
  | nil => intro i p hp; simp [indexedDists] at hp
  | cons v vs ih =>
    intro i p hp
    rcases List.mem_cons.1 hp with hp | hp
    · subst hp
      exact ⟨⟨i, le_refl i, by simp only [List.length_cons]; omega, rfl⟩, v, List.mem_cons_self v vs, rfl⟩
    · obtain ⟨⟨j, hij, hjlt, hj⟩, v', hv', hp2⟩ := ih (i + 1) p hp
      exact ⟨⟨j, by omega, by simp only [List.length_cons]; omega, hj⟩, v', List.mem_cons_of_mem _ hv', hp2⟩

/-- Membership in the (sorted, truncated) hit list returned by FAISS:
every kept row is a genuine `(position, squared distance)` pair. -/
theorem mem_faiss_top {idx : FaissIndex} {qv : List ℚ} {k : Nat} {p : Int × ℚ}
    (hp : p ∈ (List.insertionSort hitLE (indexedDists qv 0 idx.vectors)).take k) :
    (∃ j : Nat, j < idx.vectors.length ∧ p.1 = (j : Int))
    ∧ ∃ v ∈ idx.vectors, p.2 = l2sq qv v := by
  have hmem : p ∈ indexedDists qv 0 idx.vectors :=
    (List.mem_insertionSort hitLE).1 ((List.take_sublist _ _).subset hp)
  obtain ⟨⟨j, _, hjlt, hj⟩, hv⟩ := indexedDists_mem qv idx.vectors 0 p hmem
  exact ⟨⟨j, by omega, hj⟩, hv⟩

/-- A padding row `(-1, _)` is always skipped by the search loop. -/
theorem hitToResult_neg_one (data : List Item) (x : ℚ) :
    hitToResult data ((-1 : Int), x) = none := by
  simp [hitToResult]

/-- What a successful `hitToResult` tells about the produced record. -/
theorem hitToResult_fields {data : List Item} {p : Int × ℚ} {r : SearchResult}
    (h : hitToResult data p = some r) :
    r.distance = p.2 ∧ r.relevance_score = 1 / (1 + p.2)
    ∧ ∃ item, item ∈ data ∧ r.content = item.content ∧ r.url = item.url
        ∧ r.title = item.title ∧ r.chunk_id = item.chunk_id := by
  unfold hitToResult at h
  split at h
  · exact absurd h (by simp)
  · obtain ⟨item, hget, hr⟩ := Option.map_eq_some'.1 h
    subst hr
    exact ⟨rfl, rfl, item, List.getElem?_mem hget, rfl, rfl, rfl, rfl⟩

/-! ### Claim C2 -/

/-- C2 counterexample: with a valid `faiss_index.bin` next to a corrupt
`metadata.json`, `_load_index` assigns the index before the manifest parse
raises, so the index IS set afterwards (the claim requires it unset) while
`id_map` keeps its previous value — the pair is not loaded as one unit. -/
theorem c2_counterexample :
    (load_index storeEmpty diskCorruptMeta).index = some idx0
    ∧ (load_index storeEmpty diskCorruptMeta).id_map = storeEmpty.id_map := by
  exact ⟨rfl, rfl⟩

/-- C2 (amended): `_load_index` leaves the state untouched when either file is
absent or when the vector file is corrupt; it sets index and `id_map` from the
persisted pair when both files are valid; but when the vector file is valid and
the manifest is corrupt it sets the index alone and keeps the old `id_map`. -/
theorem c2_load_index_cases (s : VectorStore) (disk : Disk) :
    ((disk.indexFile = none ∨ disk.metadataFile = none) → load_index s disk = s)
    ∧ (disk.indexFile = some File.corrupt → load_index s disk = s)
    ∧ (∀ idx md, disk.indexFile = some (File.valid idx) →
        disk.metadataFile = some (File.valid md) →
        load_index s disk = { s with index := some idx, id_map := md.id_map })
    ∧ (∀ idx, disk.indexFile = some (File.valid idx) →
        disk.metadataFile = some File.corrupt →
        load_index s disk = { s with index := some idx }) := by
  obtain ⟨fi, fm⟩ := disk
  refine ⟨fun h => ?_, fun h => ?_, fun idx md h1 h2 => ?_, fun idx h1 h2 => ?_⟩
  · simp only at h
    rcases h with h | h <;> subst h
    · rfl
    · cases fi with
      | none => rfl
      | some f => cases f <;> rfl
  · simp only at h
    subst h
    cases fm with
    | none => rfl
    | some f => rfl
  · simp only at h1 h2
    subst h1; subst h2
    rfl
  · simp only at h1 h2
    subst h1; subst h2
    rfl

/-- C2 witness: the four `_load_index` outcomes at concrete disks. -/
theorem c2_load_index_witness :
    load_index storeEmpty disk0 = storeEmpty
    ∧ load_index storeEmpty diskCorruptIdx = storeEmpty
    ∧ load_index storeEmpty disk1
        = { storeEmpty with index := some idx0, id_map := md0.id_map }
    ∧ load_index storeEmpty diskCorruptMeta = { storeEmpty with index := some idx0 } :=
  ⟨(c2_load_index_cases storeEmpty disk0).1 (Or.inl rfl),
   (c2_load_index_cases storeEmpty diskCorruptIdx).2.1 rfl,
   (c2_load_index_cases storeEmpty disk1).2.2.1 idx0 md0 rfl rfl,
   (c2_load_index_cases storeEmpty diskCorruptMeta).2.2.2 idx0 rfl rfl⟩

/-! ### Claim C5 -/

/-- C5: with at least one search result the confidence is the cosine
similarity between the question embedding and the top result's content
embedding, clamped into [0,1]; with no results it is 0.0; and it always
lies in [0,1]. -/
theorem c5_confidence :
    (∀ (norm : List ℚ → ℚ) (enc : String → List ℚ) (q : String) (top : SearchResult)
        (rest : List SearchResult),
        generate_confidence norm enc q (top :: rest) true
          = max 0 (min (cosine_similarity norm (enc q) (enc top.content)) 1))
    ∧ (∀ (norm : List ℚ → ℚ) (enc : String → List ℚ) (q : String) (vs : Bool),
        generate_confidence norm enc q [] vs = 0)
    ∧ (∀ (norm : List ℚ → ℚ) (enc : String → List ℚ) (q : String)
        (res : List SearchResult) (vs : Bool),
        0 ≤ generate_confidence norm enc q res vs
          ∧ generate_confidence norm enc q res vs ≤ 1) := by
  refine ⟨fun norm enc q top rest => rfl, fun norm enc q vs => by cases vs <;> rfl, ?_⟩
  intro norm enc q res vs
  cases res with
  | nil => cases vs <;> exact ⟨le_refl 0, zero_le_one⟩
  | cons top rest =>
    cases vs with
    | false => exact ⟨le_refl 0, zero_le_one⟩
    | true =>
      refine ⟨le_max_left 0 _, max_le zero_le_one (min_le_right _ 1)⟩

/-! ### Claim C9 -/

/-- C9: `create_embeddings` fails on an empty corpus without touching the
in-memory index or the disk, and an embedding-provider failure aborts the
whole build leaving the previous state (memory and disk) fully intact. -/
theorem c9_build_failure (enc : String → Option (List ℚ)) (s : VectorStore) (disk : Disk) :
    (s.data = [] → create_embeddings enc s disk = (s, disk, false))
    ∧ (encodeAll enc (s.data.map fun it => it.content) = none →
        create_embeddings enc s disk = (s, disk, false)) := by
  constructor
  · intro h
    simp [create_embeddings, h]
  · intro h
    have hd : s.data.isEmpty = false := by
      cases hdata : s.data with
      | nil => rw [hdata] at h; simp [encodeAll] at h
      | cons a l => rfl
    unfold create_embeddings
    rw [if_neg (by simp [hd]), h]

/-- C9 witness: the two failure modes at concrete inputs. -/
theorem c9_build_failure_witness :
    create_embeddings encLen storeEmpty disk0 = (storeEmpty, disk0, false)
    ∧ create_embeddings encFail store0 disk0 = (store0, disk0, false) :=
  ⟨(c9_build_failure encLen storeEmpty disk0).1 rfl,
   (c9_build_failure encFail store0 disk0).2 rfl⟩

/-! ### Claim C10 -/

/-- One contact-loop step only ever adds groups that pass the 5-word guard. -/
theorem contactStep_acc (st : List String × List String) (sentence : String)
    (h : ∀ c ∈ st.1, 5 < countWords c) :
    ∀ c ∈ (contactStep st sentence).1, 5 < countWords c := by
  simp only [contactStep]
  split
  · intro c hc
    simp only at hc
    split at hc
    · rcases List.mem_append.1 hc with hc | hc
      · exact h c hc
      · rw [List.mem_singleton.1 hc]
        assumption
    · exact h c hc
  · exact h

/-- The contact fold preserves the 5-word property of accumulated groups. -/
theorem contactFold_acc (sentences : List String) :
    ∀ st : List String × List String, (∀ c ∈ st.1, 5 < countWords c) →
      ∀ c ∈ (sentences.foldl contactStep st).1, 5 < countWords c := by
  induction sentences with
  | nil => intro st h; exact h
  | cons a l ih =>
    intro st h
    rw [List.foldl_cons]
    exact ih _ (contactStep_acc st a h)

/-- Every group the contact path emits has more than 5 words. -/
theorem contactChunks_words (text : String) :
    ∀ c ∈ contactChunksOf text, 5 < countWords c := by
  simp only [contactChunksOf]
  have hacc := contactFold_acc (splitSentences text) ([], []) (by intro c hc; simp at hc)
  intro c hc
  split at hc
  · exact hacc c hc
  · split at hc
    · rcases List.mem_append.1 hc with hc | hc
      · exact hacc c hc
      · rw [List.mem_singleton.1 hc]
        assumption
    · exact hacc c hc

/-- C10: a text containing 'phone'/'email'/'contact'/'support' takes the
contact path, which never consults the embedding provider, the similarity
threshold or the chunk-size bounds (the output is identical under any of
them), never returns an empty list (whole-text fallback), and every
non-fallback chunk has more than 5 words. -/
theorem c10_contact_path (norm norm' : List ℚ → ℚ) (enc enc' : String → List ℚ)
    (thr thr' : ℚ) (minc maxc minc' maxc' : Nat) (text : String)
    (h : hasContactKeyword text = true) :
    semantic_chunk_text norm enc thr minc maxc text
      = semantic_chunk_text norm' enc' thr' minc' maxc' text
    ∧ semantic_chunk_text norm enc thr minc maxc text ≠ []
    ∧ ∀ c ∈ semantic_chunk_text norm enc thr minc maxc text,
        5 < countWords c ∨ semantic_chunk_text norm enc thr minc maxc text = [text] := by
  have hout : ∀ (n : List ℚ → ℚ) (e : String → List ℚ) (t : ℚ) (mi ma : Nat),
      semantic_chunk_text n e t mi ma text
        = if (contactChunksOf text).isEmpty then [text] else contactChunksOf text := by
    intro n e t mi ma
    simp [semantic_chunk_text, h]
  refine ⟨by rw [hout, hout], ?_, ?_⟩
  · rw [hout]
    split
    · simp
    · next hne => simpa [List.isEmpty_iff] using hne
  · intro c hc
    rw [hout] at hc ⊢
    by_cases hcc : (contactChunksOf text).isEmpty
    · right
      rw [if_pos hcc]
    · left
      rw [if_neg hcc] at hc
      exact contactChunks_words text c hc

/-- C10 witness: the contact path at a concrete contact text, with two
different providers/parameter sets. -/
theorem c10_contact_path_witness :
    semantic_chunk_text norm1 encConst (3/4) 2 8 contactText
      = semantic_chunk_text (fun _ => 0) (fun _ => [2]) (1/2) 1 4 contactText
    ∧ semantic_chunk_text norm1 encConst (3/4) 2 8 contactText ≠ []
    ∧ ∀ c ∈ semantic_chunk_text norm1 encConst (3/4) 2 8 contactText,
        5 < countWords c ∨ semantic_chunk_text norm1 encConst (3/4) 2 8 contactText
          = [contactText] :=
  c10_contact_path norm1 (fun _ => 0) encConst (fun _ => [2]) (3/4) (1/2) 2 8 1 4
    contactText (by decide)

/-! ### Claim C4 -/

/-- C4 counterexample: "Please contact us." contains the keyword 'contact',
so the chunker takes the contact path; its only group has 3 words and is
dropped by the (5-word) filter, and the whole text comes back as a fallback
chunk — a chunk of 3 words in the output, not the empty result the claim
demands for every input text whose chunks are all below `minChunkWords`. -/
theorem c4_counterexample :
    semantic_chunk_text norm1 encConst (3/4) 2 8 "Please contact us."
      = ["Please contact us."]
    ∧ countWords "Please contact us." = 3 := by
  exact ⟨rfl, rfl⟩

/-- C4 (amended): for texts without contact keywords and with more than
`min_chunk_size` sentences, every chunk in the output has more than 10 words,
and when every pre-filter chunk is at or below 10 words the result is empty,
with no fallback.  (Contact texts use a 5-word filter with a whole-text
fallback; texts with few sentences are returned unfiltered.) -/
theorem c4_word_filter (norm : List ℚ → ℚ) (enc : String → List ℚ) (thr : ℚ)
    (minc maxc : Nat) (text : String)
    (h : hasContactKeyword text = false)
    (hn : minc < (splitSentences text).length) :
    (∀ c ∈ semantic_chunk_text norm enc thr minc maxc text, 10 < countWords c)
    ∧ ((∀ c ∈ regularChunks norm enc thr maxc (splitSentences text), countWords c ≤ 10) →
        semantic_chunk_text norm enc thr minc maxc text = []) := by
  have hout : semantic_chunk_text norm enc thr minc maxc text
      = (regularChunks norm enc thr maxc (splitSentences text)).filter
          fun c => 10 < countWords c := by
    simp [semantic_chunk_text, h, Nat.not_le.2 hn]
  constructor
  · intro c hc
    rw [hout] at hc
    exact of_decide_eq_true (List.mem_filter.1 hc).2
  · intro hall
    rw [hout]
    exact List.filter_eq_nil_iff.2 fun c hc => by
      simpa using Nat.not_lt.2 (hall c hc)

/-- C4 witness: the word filter on a concrete non-contact text of three
similar sentences. -/
theorem c4_word_filter_witness :
    (∀ c ∈ semantic_chunk_text norm1 encConst (3/4) 2 8 simText, 10 < countWords c)
    ∧ ((∀ c ∈ regularChunks norm1 encConst (3/4) 8 (splitSentences simText),
          countWords c ≤ 10) →
        semantic_chunk_text norm1 encConst (3/4) 2 8 simText = []) :=
  c4_word_filter norm1 encConst (3/4) 2 8 simText (by decide) (by decide)

/-! ### Claim C3 -/

/-- The source's close-condition (`sim < thr or len >= max`) is the exact
negation of the spec's append-condition (`sim ≥ thr and len < max`). -/
theorem chunkFold_eq_specChunkFold (norm : List ℚ → ℚ) (thr : ℚ) (maxc : Nat)
    (st : ChunkState) (p : String × List ℚ) :
    chunkFold norm thr maxc st p = specChunkFold norm thr maxc st p := by
  simp only [chunkFold, specChunkFold]
  by_cases h1 : listDot (st.current_emb.getLastD []) p.2
      / (norm (st.current_emb.getLastD []) * norm p.2 + epsQ) < thr
      ∨ maxc ≤ st.current_chunk.length
  · rw [if_pos h1, if_neg]
    rintro ⟨ha, hb⟩
    rcases h1 with h | h
    · exact absurd ha (not_le.2 h)
    · omega
  · rw [if_neg h1, if_pos]
    push_neg at h1
    exact ⟨h1.1, h1.2⟩

/-- While every consecutive similarity stays at or above the threshold and the
sentence budget fits under the cap, the loop only ever appends. -/
theorem chunkFold_no_break (norm : List ℚ → ℚ) (enc : String → List ℚ) (thr : ℚ)
    (maxc : Nat) :
    ∀ (rest C cs : List String) (ce : List (List ℚ)) (lastS : String),
      ce.getLastD [] = enc lastS →
      List.Chain'
        (fun a b => thr ≤ listDot (enc a) (enc b) / (norm (enc a) * norm (enc b) + epsQ))
        (lastS :: rest) →
      cs.length + rest.length ≤ maxc →
      (rest.map fun s => (s, enc s)).foldl (chunkFold norm thr maxc) ⟨C, cs, ce⟩
        = ⟨C, cs ++ rest, ce ++ rest.map enc⟩ := by
  intro rest
  induction rest with
  | nil =>
    intro C cs ce lastS _ _ _
    simp
  | cons r rest' ih =>
    intro C cs ce lastS hlast hch hlen
    rw [List.chain'_cons] at hch
    obtain ⟨hsim, hch'⟩ := hch
    rw [List.map_cons, List.foldl_cons]
    have hcond : ¬(listDot (enc lastS) (enc r)
          / (norm (enc lastS) * norm (enc r) + epsQ) < thr ∨ maxc ≤ cs.length) := by
      push_neg
      refine ⟨hsim, ?_⟩
      simp only [List.length_cons] at hlen
      omega
    have hstep : chunkFold norm thr maxc ⟨C, cs, ce⟩ (r, enc r)
        = ⟨C, cs ++ [r], ce ++ [enc r]⟩ := by
      simp only [chunkFold, hlast]
      rw [if_neg hcond]
    rw [hstep, ih C (cs ++ [r]) (ce ++ [enc r]) r (List.getLastD_concat _ _ _) hch'
      (by simp only [List.length_append, List.length_cons, List.length_nil] at hlen ⊢; omega)]
    simp

/-- C3 counterexample: "A a. B b. C c." has three sentences (more than
`min_chunk_size = 2`, at most `max_chunk_size = 8`), contains no contact
keyword, and under `encConst`/`norm1` every adjacent similarity is
`1/(1+1e-8) ≥ 3/4` — yet the chunker returns no chunk at all, because the
single merged chunk has only 6 words and the `> 10`-word post-filter drops
it, contradicting "yields exactly one chunk". -/
theorem c3_counterexample :
    semantic_chunk_text norm1 encConst (3/4) 2 8 "A a. B b. C c." = []
    ∧ hasContactKeyword "A a. B b. C c." = false
    ∧ (splitSentences "A a. B b. C c.").length = 3
    ∧ List.Chain'
        (fun a b => (3/4 : ℚ) ≤ listDot (encConst a) (encConst b)
          / (norm1 (encConst a) * norm1 (encConst b) + epsQ))
        (splitSentences "A a. B b. C c.") := by
  have hsplit : splitSentences "A a. B b. C c." = ["A a.", "B b.", "C c."] := rfl
  have hkw : hasContactKeyword "A a. B b. C c." = false := rfl
  have hw : countWords (joinSp ["A a.", "B b.", "C c."]) = 6 := rfl
  have hsim : ∀ a b : String, (3/4 : ℚ) ≤ listDot (encConst a) (encConst b)
      / (norm1 (encConst a) * norm1 (encConst b) + epsQ) := by
    intro a b
    norm_num [listDot, encConst, norm1, epsQ]
  refine ⟨?_, hkw, by decide, ?_⟩
  · simp only [semantic_chunk_text, hkw, Bool.false_eq_true, if_false, hsplit]
    norm_num [regularChunks, chunkFold, encConst, norm1, epsQ, listDot,
      List.foldl_cons, List.foldl_nil, List.getLastD, hw]
  · rw [hsplit]
    exact List.chain'_cons.2 ⟨hsim _ _, List.chain'_cons.2 ⟨hsim _ _, List.chain'_singleton _⟩⟩

/-- C3 (amended): the loop step appends a sentence exactly when its similarity
to the last added sentence is at least the threshold and the chunk is below
`max_chunk_size` (the source's close-condition is the exact negation of that);
consequently a text without contact keywords, with more than `min_chunk_size`
but at most `max_chunk_size` sentences, all adjacent similarities at or above
the threshold, AND whose joined text has more than 10 words, yields exactly
the one chunk joining all sentences. -/
theorem c3_greedy_boundary :
    (∀ (norm : List ℚ → ℚ) (thr : ℚ) (maxc : Nat) (st : ChunkState) (p : String × List ℚ),
        chunkFold norm thr maxc st p = specChunkFold norm thr maxc st p)
    ∧ (∀ (norm : List ℚ → ℚ) (enc : String → List ℚ) (thr : ℚ) (minc maxc : Nat)
        (text : String),
        hasContactKeyword text = false →
        minc < (splitSentences text).length →
        (splitSentences text).length ≤ maxc →
        List.Chain'
          (fun a b => thr ≤ listDot (enc a) (enc b)
            / (norm (enc a) * norm (enc b) + epsQ))
          (splitSentences text) →
        10 < countWords (joinSp (splitSentences text)) →
        semantic_chunk_text norm enc thr minc maxc text
          = [joinSp (splitSentences text)]) := by
  constructor
  · exact chunkFold_eq_specChunkFold
  · intro norm enc thr minc maxc text hkw hmin hmax hch hw
    simp only [semantic_chunk_text, hkw, Bool.false_eq_true, if_false]
    rw [if_neg (Nat.not_le.2 hmin)]
    cases hs : splitSentences text with
    | nil => rw [hs] at hmin; simp at hmin
    | cons s0 rest =>
      rw [hs] at hch hw hmax
      simp only [regularChunks]
      rw [chunkFold_no_break norm enc thr maxc rest [] [s0] [enc s0] s0
        (by simp) hch
        (by simp only [List.length_cons, List.length_nil] at hmax ⊢; omega)]
      simp only [List.nil_append, List.cons_append]
      rw [if_neg (by simp)]
      simp [hw]

/-- C3 witness: three similar sentences, 12 words, no contact keywords —
the chunker returns exactly one chunk joining them. -/
theorem c3_greedy_boundary_witness :
    semantic_chunk_text norm1 encConst (3/4) 2 8 simText
      = [joinSp (splitSentences simText)] :=
  c3_greedy_boundary.2 norm1 encConst (3/4) 2 8 simText (by decide) (by decide)
    (by decide)
    (by
      rw [show splitSentences simText = ["Aa bb cc dd.", "Ee ff gg hh.", "Ii jj kk ll."]
        from rfl]
      have hsim : ∀ a b : String, (3/4 : ℚ) ≤ listDot (encConst a) (encConst b)
          / (norm1 (encConst a) * norm1 (encConst b) + epsQ) := by
        intro a b
        norm_num [listDot, encConst, norm1, epsQ]
      exact List.chain'_cons.2 ⟨hsim _ _,
        List.chain'_cons.2 ⟨hsim _ _, List.chain'_singleton _⟩⟩)
    (by decide)

/-! ### Claim C7 -/

/-- The FAISS query always returns exactly `k` rows (real hits padded
with `-1` rows). -/
theorem faissSearch_length (idx : FaissIndex) (qv : List ℚ) (k : Nat) :
    (faissSearch idx qv k).length = k := by
  simp only [faissSearch, List.length_append, List.length_replicate, List.length_take]
  omega

/-- C7: on a consistently built store (index rows = data records, query
encodable) `search` returns exactly `min k corpusSize` results, so `k` larger
than the corpus yields exactly `corpusSize` results; `k = 0`, an unset index,
or an empty corpus yield `[]`, and no case raises. -/
theorem c7_k_clamping :
    (∀ (enc : String → Option (List ℚ)) (s : VectorStore) (q : String) (k : Nat)
        (idx : FaissIndex) (qv : List ℚ),
        s.index = some idx → idx.vectors.length = s.data.length → enc q = some qv →
        (search enc s q k).length = min k s.data.length)
    ∧ (∀ (enc : String → Option (List ℚ)) (s : VectorStore) (q : String),
        search enc s q 0 = [])
    ∧ (∀ (enc : String → Option (List ℚ)) (s : VectorStore) (q : String) (k : Nat),
        s.index = none → search enc s q k = [])
    ∧ (∀ (enc : String → Option (List ℚ)) (s : VectorStore) (q : String) (k : Nat),
        s.data = [] → search enc s q k = []) := by
  refine ⟨?_, ?_, ?_, ?_⟩
  · intro enc s q k idx qv hidx hlen henc
    simp only [search, hidx, henc]
    by_cases hd : s.data.isEmpty
    · rw [if_pos hd]
      rw [List.isEmpty_iff] at hd
      simp [hd]
    · rw [if_neg hd]
      have hn : (List.insertionSort hitLE (indexedDists qv 0 idx.vectors)).length
          = s.data.length := by
        rw [List.length_insertionSort, indexedDists_length, hlen]
      simp only [faissSearch]
      have htop : ((List.insertionSort hitLE (indexedDists qv 0 idx.vectors)).take
          (min k s.data.length)).length = min k s.data.length := by
        rw [List.length_take, hn]
        omega
      rw [htop, Nat.sub_self, List.replicate_zero, List.append_nil]
      rw [length_filterMap_isSome _ _ ?_, htop]
      intro p hp
      obtain ⟨⟨j, hj, hj1⟩, -⟩ := mem_faiss_top hp
      have hjd : j < s.data.length := by rw [← hlen]; exact hj
      unfold hitToResult
      rw [if_neg (by rw [hj1]; omega)]
      rw [hj1, Int.toNat_natCast, List.getElem?_eq_getElem hjd]
      simp
  · intro enc s q
    rcases hidx : s.index with _ | idx
    · simp [search, hidx]
    · simp only [search, hidx]
      by_cases hd : s.data.isEmpty
      · rw [if_pos hd]
      · rw [if_neg hd]
        rcases henc : enc q with _ | qv
        · rfl
        · simp [faissSearch, Nat.zero_min]
  · intro enc s q k h
    simp [search, h]
  · intro enc s q k h
    rcases hidx : s.index with _ | idx
    · simp [search, hidx]
    · simp [search, hidx, h]

/-- C7 witness: exact clamping on the two-document store, `k = 0`, and the
empty store, at concrete inputs. -/
theorem c7_k_clamping_witness :
    (search encLen storeW "q" 5).length = min 5 storeW.data.length
    ∧ search encLen storeW "q" 0 = []
    ∧ search encLen storeEmpty "q" 3 = [] :=
  ⟨c7_k_clamping.1 encLen storeW "q" 5 idxW [1] rfl rfl rfl,
   c7_k_clamping.2.1 encLen storeW "q",
   c7_k_clamping.2.2.2 encLen storeEmpty "q" 3 rfl⟩

/-! ### Claim C8 -/

/-- C8: every record `search` returns is resolved through `self.data`
(complete with its metadata), and unresolvable positions are skipped, so the
result count never exceeds `min k corpusSize` — even on a stale index. -/
theorem c8_stale_safe (enc : String → Option (List ℚ)) (s : VectorStore)
    (q : String) (k : Nat) :
    (∀ r ∈ search enc s q k, ∃ item, item ∈ s.data ∧ r.content = item.content
        ∧ r.url = item.url ∧ r.title = item.title ∧ r.chunk_id = item.chunk_id)
    ∧ (search enc s q k).length ≤ min k s.data.length := by
  rcases hidx : s.index with _ | idx
  · refine ⟨fun r hr => absurd hr (by simp [search, hidx]), by simp [search, hidx]⟩
  · by_cases hd : s.data.isEmpty
    · refine ⟨fun r hr => absurd hr (by simp [search, hidx, hd]), by simp [search, hidx, hd]⟩
    · rcases henc : enc q with _ | qv
      · refine ⟨fun r hr => absurd hr (by simp [search, hidx, hd, henc]),
          by simp [search, hidx, hd, henc]⟩
      · constructor
        · intro r hr
          simp only [search, hidx, hd, henc, if_neg, Bool.false_eq_true, if_false] at hr
          obtain ⟨p, hp, hsome⟩ := List.mem_filterMap.1 hr
          obtain ⟨-, -, item, hmem, hfields⟩ := hitToResult_fields hsome
          exact ⟨item, hmem, hfields⟩
        · simp only [search, hidx, hd, henc, Bool.false_eq_true, if_false]
          calc (List.filterMap (hitToResult s.data)
                  (faissSearch idx qv (min k s.data.length))).length
              ≤ (faissSearch idx qv (min k s.data.length)).length :=
                List.length_filterMap_le _ _
            _ = min k s.data.length := faissSearch_length idx qv _

/-- Concrete evaluation of `search` on the two-document store: the nearer
vector first, distances 0 and 4, relevance scores 1 and 1/5. -/
theorem searchW_eval : search encLen storeW "q" 5 = [resA, resB] := by
  have hl1 : l2sq [(1:ℚ)] [(1:ℚ)] = 0 := by norm_num [l2sq]
  have hl2 : l2sq [(1:ℚ)] [(3:ℚ)] = 4 := by norm_num [l2sq]
  have henc : encLen "q" = some [1] := rfl
  simp only [search, storeW, idxW, itemA, itemB, henc, faissSearch, indexedDists, hl1, hl2]
  norm_num [List.insertionSort, List.orderedInsert, hitLE]
  norm_num [List.filterMap_cons, hitToResult, resA, resB]

/-- C8 witness: the resolved-through-data guarantee at the top result of the
two-document store, and the skip bound on a stale store (three index rows,
one data record) where the nearest rows fail to resolve. -/
theorem c8_stale_safe_witness :
    (∃ item, item ∈ storeW.data ∧ resA.content = item.content ∧ resA.url = item.url
        ∧ resA.title = item.title ∧ resA.chunk_id = item.chunk_id)
    ∧ (search encLen storeStale "q" 3).length ≤ min 3 storeStale.data.length :=
  ⟨(c8_stale_safe encLen storeW "q" 5).1 resA
      (by rw [searchW_eval]; exact List.mem_cons_self _ _),
   (c8_stale_safe encLen storeStale "q" 3).2⟩

/-! ### Claim C6 -/

/-- C6: every result's `relevance_score` is `1 / (1 + distance)` with a
non-negative (squared L2) distance, the result list is ordered with
non-decreasing distance and non-increasing relevance, and `1 / (1 + d)` is
monotonically decreasing on non-negative distances. -/
theorem c6_relevance_ordering (enc : String → Option (List ℚ)) (s : VectorStore)
    (q : String) (k : Nat) :
    (∀ r ∈ search enc s q k, r.relevance_score = 1 / (1 + r.distance) ∧ 0 ≤ r.distance)
    ∧ (search enc s q k).Pairwise
        (fun r1 r2 => r1.distance ≤ r2.distance ∧ r2.relevance_score ≤ r1.relevance_score)
    ∧ (∀ d1 d2 : ℚ, 0 ≤ d1 → d1 ≤ d2 → 1 / (1 + d2) ≤ 1 / (1 + d1)) := by
  have hmono : ∀ d1 d2 : ℚ, 0 ≤ d1 → d1 ≤ d2 → 1 / (1 + d2) ≤ 1 / (1 + d1) := by
    intro d1 d2 h0 h12
    apply one_div_le_one_div_of_le <;> linarith
  rcases hidx : s.index with _ | idx
  · exact ⟨fun r hr => absurd hr (by simp [search, hidx]),
      by simp [search, hidx], hmono⟩
  · by_cases hd : s.data.isEmpty
    · exact ⟨fun r hr => absurd hr (by simp [search, hidx, hd]),
        by simp [search, hidx, hd], hmono⟩
    · rcases henc : enc q with _ | qv
      · exact ⟨fun r hr => absurd hr (by simp [search, hidx, hd, henc]),
          by simp [search, hidx, hd, henc], hmono⟩
      · have hsplit : search enc s q k
            = (faissSearch idx qv (min k s.data.length)).filterMap (hitToResult s.data) := by
          simp [search, hidx, hd, henc]
        have hnonneg : ∀ p ∈ faissSearch idx qv (min k s.data.length),
            ∀ r, hitToResult s.data p = some r → 0 ≤ p.2 := by
          intro p hp r hr
          simp only [faissSearch] at hp
          rcases List.mem_append.1 hp with hp | hp
          · obtain ⟨-, v, -, hv⟩ := mem_faiss_top hp
            rw [hv]
            exact l2sq_nonneg qv v
          · rw [List.eq_of_mem_replicate hp, hitToResult_neg_one] at hr
            exact absurd hr (by simp)
        refine ⟨?_, ?_, hmono⟩
        · intro r hr
          rw [hsplit] at hr
          obtain ⟨p, hp, hsome⟩ := List.mem_filterMap.1 hr
          obtain ⟨hdist, hrel, -⟩ := hitToResult_fields hsome
          refine ⟨by rw [hrel, hdist], ?_⟩
          rw [hdist]
          exact hnonneg p hp r hsome
        · rw [hsplit, List.pairwise_filterMap]
          simp only [faissSearch]
          apply List.pairwise_append.2
          refine ⟨?_, ?_, ?_⟩
          · have hst : List.Pairwise hitLE
                ((List.insertionSort hitLE (indexedDists qv 0 idx.vectors)).take
                  (min k s.data.length)) :=
              (List.sorted_insertionSort hitLE _).sublist (List.take_sublist _ _)
            refine hst.imp_of_mem ?_
            intro a b ha hb hab x hx y hy
            rw [Option.mem_def] at hx hy
            obtain ⟨hdx, hrx, -⟩ := hitToResult_fields hx
            obtain ⟨hdy, hry, -⟩ := hitToResult_fields hy
            have hab2 : a.2 ≤ b.2 := by
              rcases hab with h | ⟨h, -⟩
              · exact le_of_lt h
              · exact le_of_eq h
            have h0a : 0 ≤ a.2 := by
              obtain ⟨-, v, -, hv⟩ := mem_faiss_top ha
              rw [hv]
              exact l2sq_nonneg qv v
            constructor
            · rw [hdx, hdy]
              exact hab2
            · rw [hrx, hry]
              exact hmono a.2 b.2 h0a hab2
          · apply List.pairwise_replicate.2
            right
            intro x hx
            rw [Option.mem_def, hitToResult_neg_one] at hx
            exact absurd hx (by simp)
          · intro a ha b hb x hx y hy
            rw [List.eq_of_mem_replicate hb] at hy
            rw [Option.mem_def, hitToResult_neg_one] at hy
            exact absurd hy (by simp)

/-- C6 witness: the formula, the non-negative distance, and the ordering
conjunct instantiated on the two-document store, plus the monotonicity of
the relevance transform at 0 and 4. -/
theorem c6_relevance_witness :
    (resA.relevance_score = 1 / (1 + resA.distance) ∧ 0 ≤ resA.distance)
    ∧ ((1:ℚ) / (1 + 4) ≤ 1 / (1 + 0)) :=
  ⟨(c6_relevance_ordering encLen storeW "q" 5).1 resA
      (by rw [searchW_eval]; exact List.mem_cons_self _ _),
   (c6_relevance_ordering encLen storeW "q" 5).2.2 0 4 le_rfl (by norm_num)⟩

/-! ### Claim C1 -/

/-- C1 counterexample: build + persist a one-document store, then let a fresh
instance run `_load_index` (as the constructor does).  The fresh instance has
`self.data = []` — `load_data` is a separate call — so its `search` returns
`[]` while the pre-persist instance returns one hit: the round trip as claimed
(load alone) does not reproduce the search results. -/
theorem c1_counterexample :
    search encLen (loadInit (create_embeddings encLen store0 disk0).2.1) "hello" 1 = []
    ∧ search encLen (create_embeddings encLen store0 disk0).1 "hello" 1 ≠ [] := by
  have hbuild : create_embeddings encLen store0 disk0 = (store1, disk1, true) := rfl
  rw [hbuild]
  refine ⟨rfl, fun h => ?_⟩
  have hlen := congrArg List.length h
  exact absurd hlen (by decide)

/-- C1 (amended): after a successful build + persist, a fresh instance that
runs `_load_index` AND reloads the same data records (the source's
`load_data` step, which the claim omits) answers `search` exactly as the
pre-persist instance, and the persisted `id_map` is restored verbatim. -/
theorem c1_round_trip_after_reload_data (enc : String → Option (List ℚ))
    (s : VectorStore) (disk : Disk) (q : String) (k : Nat)
    (s' : VectorStore) (disk' : Disk)
    (h : create_embeddings enc s disk = (s', disk', true)) :
    search enc { data := s.data, index := (loadInit disk').index,
                 id_map := (loadInit disk').id_map } q k = search enc s' q k
    ∧ (loadInit disk').id_map = s'.id_map := by
  unfold create_embeddings at h
  by_cases hd : s.data.isEmpty
  · rw [if_pos hd] at h
    have hfalse : (false : Bool) = true := congrArg (fun t => t.2.2) h
    simp at hfalse
  · rw [if_neg hd] at h
    rcases he : encodeAll enc (s.data.map fun it => it.content) with _ | embs <;>
      rw [he] at h
    · have hfalse : (false : Bool) = true := congrArg (fun t => t.2.2) h
      simp at hfalse
    · simp only [Prod.mk.injEq] at h
      obtain ⟨h1, h2, -⟩ := h
      subst h1
      subst h2
      exact ⟨rfl, rfl⟩

/-- C1 witness: the amended round trip at the concrete one-document store. -/
theorem c1_round_trip_witness :
    search encLen { data := store0.data, index := (loadInit disk1).index,
                    id_map := (loadInit disk1).id_map } "hello" 3
      = search encLen store1 "hello" 3
    ∧ (loadInit disk1).id_map = store1.id_map :=
  c1_round_trip_after_reload_data encLen store0 disk0 "hello" 3 store1 disk1 rfl

end Jupiter
